import Mathlib

/-!
Verification of the note ingestion, normalization and link-graph extraction
pipeline of the notes site (`lib/notes.ts`).  The TypeScript source is
shallowly embedded: strings are Lean `String`s manipulated through their
character lists, JavaScript regular-expression scans are implemented as
deterministic character scanners (all the regexes involved have
character-class-bounded captures, so they are deterministic), the JavaScript
`Map` is an insertion-ordered association list, and fallible operations
(filesystem reads, the external `unified` renderer) are `Except` values.
External library calls of the source (`gray-matter`, the `unified`
processor) are parameters of the embedding: they are third-party
dependencies, not code of this repository.
-/

namespace NotesSite

/-! ## Basic string utilities (JavaScript semantics) -/

/-- JavaScript `String.prototype.trim`, restricted to the ASCII whitespace
characters that occur in note files (space, tab, CR, LF). -/
def jsTrim (s : String) : String :=
  ⟨((s.data.dropWhile Char.isWhitespace).reverse.dropWhile Char.isWhitespace).reverse⟩

/-- Core of JavaScript `String.prototype.split` with a one-character
separator: returns the first piece and the remaining pieces.  The result
list `fst :: snd` is always non-empty, as in JavaScript. -/
def splitListCore (c : Char) : List Char → List Char × List (List Char)
  | [] => ([], [])
  | x :: xs =>
    let r := splitListCore c xs
    if x = c then ([], r.1 :: r.2) else (x :: r.1, r.2)

/-- JavaScript `s.split(c)` on character lists. -/
def splitList (c : Char) (l : List Char) : List (List Char) :=
  (splitListCore c l).1 :: (splitListCore c l).2

/-- JavaScript `pieces.join(c)` on character lists. -/
def joinList (c : Char) : List (List Char) → List Char
  | [] => []
  | [x] => x
  | x :: y :: rest => x ++ c :: joinList c (y :: rest)

/-- Embeds `content.split("\n")` as a list of line strings. -/
def splitLines (s : String) : List String :=
  (splitList '\n' s.data).map (fun l => ⟨l⟩)

/-- Embeds `lines.join("\n")`. -/
def joinLines (ls : List String) : String :=
  ⟨joinList '\n' (ls.map String.data)⟩

/-- Embeds `s.split(c)` as a list of strings. -/
def splitOnChar (c : Char) (s : String) : List String :=
  (splitList c s.data).map (fun l => ⟨l⟩)

/-- Boolean string-prefix test (JavaScript `String.prototype.startsWith`). -/
def strStartsWith (s p : String) : Bool :=
  s.data.take p.data.length == p.data

/-- Case-insensitive suffix test, used for the `/i`-flagged extension
regular expressions of the source. -/
def endsWithCI (s suf : String) : Bool :=
  let l := s.data.map Char.toLower
  suf.data.length ≤ l.length && l.drop (l.length - suf.data.length) == suf.data

/-- Drop the last `n` characters of a string. -/
def dropLastChars (s : String) (n : Nat) : String :=
  ⟨s.data.take (s.data.length - n)⟩

/-! ## Node path helpers

The source manipulates paths through Node's `path` module; the embedding
works on the path relative to the content root, written with `/`
separators (the only form the repository's content tree produces). -/

/-- Node `path.dirname` for relative slash-separated file paths:
everything before the last `/`, or `.` when there is no separator. -/
def dirname (p : String) : String :=
  match splitList '/' p.data with
  | [] => "."
  | [_] => "."
  | parts => ⟨joinList '/' parts.dropLast⟩

/-- The last path component, as characters. -/
def baseChars (p : String) : List Char :=
  (splitList '/' p.data).getLastD []

/-- The suffix of a list starting at its last `.`, searching the given list
(`none` when it has no dot). -/
def lastDotSuffix : List Char → Option (List Char)
  | [] => none
  | c :: rest =>
    match lastDotSuffix rest with
    | some s => some s
    | none => if c = '.' then some (c :: rest) else none

/-- Node `path.extname`: the substring of the basename from its last `.`,
where a dot in first position (hidden files) does not count. -/
def extname (p : String) : String :=
  match baseChars p with
  | [] => ""
  | _ :: rest =>
    match lastDotSuffix rest with
    | some s => ⟨s⟩
    | none => ""

/-- Embeds `path.extname(filePath).toLowerCase()` (line 586 of the source). -/
def extnameLower (p : String) : String :=
  ⟨(extname p).data.map Char.toLower⟩

/-- Node `path.basename(filePath, ext)`: the last path component with the
suffix `ext` stripped when it matches (case-sensitively, as in Node) and is
shorter than the component. -/
def basenameExt (p ext : String) : String :=
  let b := baseChars p
  if ext ≠ "" ∧ ext.data.length < b.length ∧
      b.drop (b.length - ext.data.length) = ext.data then
    ⟨b.take (b.length - ext.data.length)⟩
  else ⟨b⟩

/-- Slug computation of `parseNote` (line 589):
`relativePath.replace(/\.(md|org|csv)$/i, "").replace(/\\/g, "/")`. -/
def slugOf (rel : String) : String :=
  let stripped :=
    if endsWithCI rel ".md" then dropLastChars rel 3
    else if endsWithCI rel ".org" then dropLastChars rel 4
    else if endsWithCI rel ".csv" then dropLastChars rel 4
    else rel
  ⟨stripped.data.map (fun c => if c = '\\' then '/' else c)⟩

/-! ## JavaScript truthiness fallbacks -/

/-- JavaScript `x || d` for an optional string: the empty string is falsy,
so a present-but-empty value also falls back to the default. -/
def jsOrStr : Option String → String → String
  | none, d => d
  | some s, d => if s = "" then d else s

/-- JavaScript `x || d` for an optional array: arrays are always truthy,
so a present empty list is kept. -/
def jsOrList : Option (List String) → List String → List String
  | none, d => d
  | some l, _ => l

/-! ## Link extraction (`extractLinks`, lines 502-520)

Both regular expressions of the source have captures bounded by negated
character classes, making the global scan deterministic; the scanners below
walk the text left to right exactly as `String.prototype.matchAll` does,
resuming after each match and advancing one character on failure. -/

/-- One attempt of `/\[\[id:([^\]]+)\](?:\[[^\]]*\])?\]/` at the head of
the input: on success returns the captured identifier and the rest of the
input after the match. -/
def tryOrgMatch : List Char → Option (String × List Char)
  | '[' :: '[' :: 'i' :: 'd' :: ':' :: rest =>
    let idChars := rest.takeWhile (fun c => c ≠ ']')
    let rest2 := rest.dropWhile (fun c => c ≠ ']')
    if idChars = [] then none
    else
      match rest2 with
      | ']' :: rest3 =>
        match rest3 with
        | '[' :: rest4 =>
          let rest5 := rest4.dropWhile (fun c => c ≠ ']')
          (match rest5 with
           | ']' :: ']' :: rest6 => some (⟨idChars⟩, rest6)
           | _ => none)
        | ']' :: rest4 => some (⟨idChars⟩, rest4)
        | _ => none
      | _ => none
  | _ => none

/-- Global scan for the org-mode reference pattern (fuel-driven; the fuel
is initialized with the text length, which bounds the number of steps). -/
def orgScanAux : Nat → List Char → List String
  | 0, _ => []
  | _ + 1, [] => []
  | fuel + 1, c :: rest =>
    match tryOrgMatch (c :: rest) with
    | some (id, remaining) => id :: orgScanAux fuel remaining
    | none => orgScanAux fuel rest

/-- One attempt of `/\[([^\]]+)\]\(note:([^)]+)\)/` at the head of the
input; the second capture (the identifier) is returned. -/
def tryMdMatch : List Char → Option (String × List Char)
  | '[' :: rest =>
    let txt := rest.takeWhile (fun c => c ≠ ']')
    let rest2 := rest.dropWhile (fun c => c ≠ ']')
    if txt = [] then none
    else
      match rest2 with
      | ']' :: '(' :: 'n' :: 'o' :: 't' :: 'e' :: ':' :: rest3 =>
        let tgt := rest3.takeWhile (fun c => c ≠ ')')
        let rest4 := rest3.dropWhile (fun c => c ≠ ')')
        if tgt = [] then none
        else
          match rest4 with
          | ')' :: rest5 => some (⟨tgt⟩, rest5)
          | _ => none
      | _ => none
  | _ => none

/-- Global scan for the markdown `[text](note:id)` pattern. -/
def mdScanAux : Nat → List Char → List String
  | 0, _ => []
  | _ + 1, [] => []
  | fuel + 1, c :: rest =>
    match tryMdMatch (c :: rest) with
    | some (id, remaining) => id :: mdScanAux fuel remaining
    | none => mdScanAux fuel rest

/-- The raw, not yet deduplicated list of identifiers matched in the text
(the `links` array of `extractLinks` before the final `new Set`). -/
def rawLinks (content : String) (isOrg : Bool) : List String :=
  if isOrg then orgScanAux content.data.length content.data
  else mdScanAux content.data.length content.data

/-- Embeds `[...new Set(links)]`: JavaScript `Set` insertion keeps the first
occurrence of each element and preserves insertion order. -/
def dedupKeepFirst (l : List String) : List String :=
  l.foldl (fun acc x => if x ∈ acc then acc else acc ++ [x]) []

/-- Embeds `extractLinks(content, isOrg)` (lines 502-520). -/
def extractLinks (content : String) (isOrg : Bool) : List String :=
  dedupKeepFirst (rawLinks content isOrg)

/-! ## CSV rendering (`csvToHtml`, lines 553-580) -/

/-- Embeds `cell.trim().replace(/^"|"$/g, "")`: trim, then strip one leading and
one trailing double quote. -/
def csvCell (s : String) : String :=
  let t := jsTrim s
  let t1 : List Char := if t.data.take 1 = ['"'] then t.data.drop 1 else t.data
  let t2 : List Char :=
    if t1.drop (t1.length - 1) = ['"'] ∧ t1 ≠ [] then t1.take (t1.length - 1) else t1
  ⟨t2⟩

/-- One `<th>`/`<td>` row of the flashcard table. -/
def csvRow (tag : String) (cells : List String) : String :=
  "<tr>" ++ String.join (cells.map (fun c => "<" ++ tag ++ ">" ++ c ++ "</" ++ tag ++ ">")) ++ "</tr>"

/-- Embeds `csvToHtml(csv)` (lines 553-580), guard included: the source returns
the empty string when the split produces zero lines. -/
def csvToHtml (csv : String) : String :=
  match splitLines (jsTrim csv) with
  | [] => ""
  | first :: rest =>
    let headers := (splitOnChar ',' first).map csvCell
    let headerRow := "<thead>" ++ csvRow "th" headers ++ "</thead>"
    let bodyRows :=
      String.join (rest.map (fun line => csvRow "td" ((splitOnChar ',' line).map csvCell)))
    "<table class=\"flashcard-table\">" ++ headerRow ++ "<tbody>" ++ bodyRows ++ "</tbody></table>"

/-! ## Org-mode metadata extraction (`parseOrgFile`, lines 382-460) -/

/-- The partial metadata record filled by the extraction strategies
(`Partial<NoteMetadata>` in the source; also the shape of the recognized
keys of a front-matter `data` object). -/
structure FrontData where
  id : Option String := none
  title : Option String := none
  tags : Option (List String) := none
  status : Option String := none
  certainty : Option String := none
  importance : Option String := none
  start : Option String := none
  finish : Option String := none
  preview : Option String := none
deriving DecidableEq, Inhabited

/-- Match of `/^:([A-Z_]+):\s*(.*)$/` against a (trimmed) drawer line:
returns the key and the value with its leading whitespace dropped. -/
def parsePropLine (t : String) : Option (String × String) :=
  match t.data with
  | ':' :: rest =>
    let key := rest.takeWhile (fun c => ('A' ≤ c ∧ c ≤ 'Z') ∨ c = '_')
    let rest2 := rest.dropWhile (fun c => ('A' ≤ c ∧ c ≤ 'Z') ∨ c = '_')
    if key = [] then none
    else
      match rest2 with
      | ':' :: rest3 => some (⟨key⟩, ⟨rest3.dropWhile Char.isWhitespace⟩)
      | _ => none
  | _ => none

/-- The `switch (key)` of the property drawer (lines 405-427): recognized
keys update the metadata record, others are ignored. -/
def applyOrgKey (m : FrontData) (k v : String) : FrontData :=
  if k = "ID" then { m with id := some v }
  else if k = "STATUS" then { m with status := some v }
  else if k = "CERTAINTY" then { m with certainty := some v }
  else if k = "IMPORTANCE" then { m with importance := some v }
  else if k = "START" then { m with start := some v }
  else if k = "FINISH" then { m with finish := some v }
  else if k = "PREVIEW" then { m with preview := some v }
  else m

/-- Embeds `line.replace(/^#\+title:\s*/i, "").trim()`: the branch is only taken
when the trimmed line starts with the 8-character directive prefix, so the
case-insensitive replace removes those 8 characters plus following
whitespace. -/
def titleValue (t : String) : String :=
  jsTrim ⟨(t.data.drop 8).dropWhile Char.isWhitespace⟩

/-- Embeds `tagString.split(":").filter(t => t.length > 0)` where `tagString` is
the filetags line without its 11-character directive prefix. -/
def filetagsValue (t : String) : List String :=
  ((splitOnChar ':' (jsTrim ⟨(t.data.drop 11).dropWhile Char.isWhitespace⟩)).filter
    (fun s => s.length > 0))

/-- The scanning loop of `parseOrgFile` (lines 388-455): walks the lines
carrying the current index and the `inPropertyDrawer` flag, accumulating
metadata; returns the metadata together with the index of the line that
broke the loop (`none` when the loop ran to the end, leaving
`bodyStartIndex` at its initial value). -/
def orgLoop : List String → Nat → Bool → FrontData → FrontData × Option Nat
  | [], _, _, m => (m, none)
  | l :: ls, i, drawer, m =>
    let t := jsTrim l
    if t = ":PROPERTIES:" then orgLoop ls (i + 1) true m
    else if t = ":END:" then orgLoop ls (i + 1) false m
    else if drawer then
      match parsePropLine t with
      | some kv => orgLoop ls (i + 1) drawer (applyOrgKey m kv.1 kv.2)
      | none => orgLoop ls (i + 1) drawer m
    else if strStartsWith t "#+title:" || strStartsWith t "#+TITLE:" then
      orgLoop ls (i + 1) drawer { m with title := some (titleValue t) }
    else if strStartsWith t "#+filetags:" || strStartsWith t "#+FILETAGS:" then
      orgLoop ls (i + 1) drawer { m with tags := some (filetagsValue t) }
    else if strStartsWith t "#+" then orgLoop ls (i + 1) drawer m
    else if t.length > 0 then (m, some i)
    else orgLoop ls (i + 1) drawer m

/-- Result of `parseOrgFile`; the internal `bodyStartIndex` is exposed as
a field so that its characterization can be stated. -/
structure OrgParse where
  metadata : FrontData
  bodyStart : Nat
  body : String
deriving DecidableEq, Inhabited

/-- Embeds `parseOrgFile(content, filePath)` (lines 382-460); the `filePath`
argument of the source is unused there and omitted. -/
def parseOrgFile (content : String) : OrgParse :=
  let lines := splitLines content
  let r := orgLoop lines 0 false {}
  let bodyStart := r.2.getD 0
  { metadata := r.1, bodyStart := bodyStart, body := joinLines (lines.drop bodyStart) }

/-! ## Markup normalization (`orgToMarkdown`, lines 463-499)

The source applies an ordered chain of global regular-expression
substitutions.  The `^...$`-anchored rules are modelled line by line (their
`/gm` flags make `^`/`$` line anchors), the inline and link rules as global
scans; each substitution scans the input left to right and resumes after
the replaced match, as `String.prototype.replace` with `/g` does. -/

/-- One `^\*{n}\s+(.+)$` heading rule applied to a single line: `n`
asterisks, at least one whitespace character, then a non-empty rest. -/
def headingRule (n : Nat) (md : String) (line : List Char) : Option (List Char) :=
  if line.take n = List.replicate n '*' ∧ (line.drop n).takeWhile Char.isWhitespace ≠ [] then
    let ws := (line.drop n).takeWhile Char.isWhitespace
    let rest := (line.drop n).dropWhile Char.isWhitespace
    if rest ≠ [] then some (md.data ++ ' ' :: rest)
    else if 2 ≤ ws.length then
      -- backtracking of the greedy `\s+` leaves the last whitespace
      -- character to be captured by `(.+)`
      some (md.data ++ ' ' :: ws.drop (ws.length - 1))
    else none
  else none

/-- The five heading rules in source order (5 stars first, then 4, …, 1):
the first that matches rewrites the line. -/
def headingPass (line : List Char) : List Char :=
  match headingRule 5 "#####" line with
  | some r => r
  | none =>
    match headingRule 4 "####" line with
    | some r => r
    | none =>
      match headingRule 3 "###" line with
      | some r => r
      | none =>
        match headingRule 2 "##" line with
        | some r => r
        | none =>
          match headingRule 1 "#" line with
          | some r => r
          | none => line

/-- Inline rule `d([^d\n]+)d` → `pre · content · post`, scanning globally
(fuel-driven, the fuel bounding the number of scan steps). -/
def inlineScan (d : Char) (pre post : List Char) : Nat → List Char → List Char
  | 0, l => l
  | _ + 1, [] => []
  | fuel + 1, c :: rest =>
    if c = d then
      let mid := rest.takeWhile (fun x => x ≠ d ∧ x ≠ '\n')
      let rest2 := rest.dropWhile (fun x => x ≠ d ∧ x ≠ '\n')
      match rest2 with
      | c2 :: rest3 =>
        if c2 = d ∧ mid ≠ [] then pre ++ mid ++ post ++ inlineScan d pre post fuel rest3
        else c :: inlineScan d pre post fuel rest
      | [] => c :: inlineScan d pre post fuel rest
    else c :: inlineScan d pre post fuel rest

/-- Rule `[[id:X][Y]]` → `[Y](note:X)` (global scan). -/
def orgLinkDescScan : Nat → List Char → List Char
  | 0, l => l
  | _ + 1, [] => []
  | fuel + 1, c :: rest =>
    match c :: rest with
    | '[' :: '[' :: 'i' :: 'd' :: ':' :: r1 =>
      let x := r1.takeWhile (fun ch => ch ≠ ']')
      let r2 := r1.dropWhile (fun ch => ch ≠ ']')
      (match r2 with
       | ']' :: '[' :: r3 =>
         let y := r3.takeWhile (fun ch => ch ≠ ']')
         let r4 := r3.dropWhile (fun ch => ch ≠ ']')
         (match r4 with
          | ']' :: ']' :: r5 =>
            if x ≠ [] ∧ y ≠ [] then
              '[' :: y ++ ']' :: '(' :: 'n' :: 'o' :: 't' :: 'e' :: ':' :: x ++ ')' :: orgLinkDescScan fuel r5
            else c :: orgLinkDescScan fuel rest
          | _ => c :: orgLinkDescScan fuel rest)
       | _ => c :: orgLinkDescScan fuel rest)
    | _ => c :: orgLinkDescScan fuel rest

/-- Rule `[[id:X]]` → `[X](note:X)` (global scan). -/
def orgLinkIdScan : Nat → List Char → List Char
  | 0, l => l
  | _ + 1, [] => []
  | fuel + 1, c :: rest =>
    match c :: rest with
    | '[' :: '[' :: 'i' :: 'd' :: ':' :: r1 =>
      let x := r1.takeWhile (fun ch => ch ≠ ']')
      let r2 := r1.dropWhile (fun ch => ch ≠ ']')
      (match r2 with
       | ']' :: ']' :: r3 =>
         if x ≠ [] then
           '[' :: x ++ ']' :: '(' :: 'n' :: 'o' :: 't' :: 'e' :: ':' :: x ++ ')' :: orgLinkIdScan fuel r3
         else c :: orgLinkIdScan fuel rest
       | _ => c :: orgLinkIdScan fuel rest)
    | _ => c :: orgLinkIdScan fuel rest

/-- Rule `[[URL][Y]]` → `[Y](URL)` (global scan). -/
def extLinkScan : Nat → List Char → List Char
  | 0, l => l
  | _ + 1, [] => []
  | fuel + 1, c :: rest =>
    match c :: rest with
    | '[' :: '[' :: r1 =>
      let u := r1.takeWhile (fun ch => ch ≠ ']')
      let r2 := r1.dropWhile (fun ch => ch ≠ ']')
      (match r2 with
       | ']' :: '[' :: r3 =>
         let y := r3.takeWhile (fun ch => ch ≠ ']')
         let r4 := r3.dropWhile (fun ch => ch ≠ ']')
         (match r4 with
          | ']' :: ']' :: r5 =>
            if u ≠ [] ∧ y ≠ [] then
              '[' :: y ++ ']' :: '(' :: u ++ ')' :: extLinkScan fuel r5
            else c :: extLinkScan fuel rest
          | _ => c :: extLinkScan fuel rest)
       | _ => c :: extLinkScan fuel rest)
    | _ => c :: extLinkScan fuel rest

/-- Rule `^(\s*)[-+]\s+` → `$1- ` on one line: normalizes list markers keeping
the leading whitespace. -/
def listMarkerPass (line : List Char) : List Char :=
  let lead := line.takeWhile Char.isWhitespace
  let rest := line.dropWhile Char.isWhitespace
  match rest with
  | '-' :: r =>
    if r.takeWhile Char.isWhitespace ≠ [] then lead ++ '-' :: ' ' :: r.dropWhile Char.isWhitespace
    else line
  | '+' :: r =>
    if r.takeWhile Char.isWhitespace ≠ [] then lead ++ '-' :: ' ' :: r.dropWhile Char.isWhitespace
    else line
  | _ => line

/-- Case-insensitive prefix test on character lists, for the `/i`-flagged
block directives. -/
def startsWithCI (l p : List Char) : Bool :=
  (l.take p.length).map Char.toLower == p

/-- The `#+begin_src` / `#+end_src` / `#+begin_quote` / `#+end_quote`
line rules (lines 491-496), applied in source order. -/
def blockPass (line : List Char) : List Char :=
  if startsWithCI line "#+begin_src".data then
    let after := line.drop 11
    let lang := (after.dropWhile Char.isWhitespace).takeWhile (fun c =>
      c.isAlphanum ∨ c = '_')
    let rest := (after.dropWhile Char.isWhitespace).dropWhile (fun c =>
      c.isAlphanum ∨ c = '_')
    '`' :: '`' :: '`' :: lang ++ rest
  else if startsWithCI line "#+end_src".data then
    '`' :: '`' :: '`' :: line.drop 9
  else if startsWithCI line "#+begin_quote".data then
    '>' :: line.drop 13
  else if startsWithCI line "#+end_quote".data then
    line.drop 11
  else line

/-- Apply a per-line rewrite to every line of a text. -/
def mapLines (f : List Char → List Char) (l : List Char) : List Char :=
  joinList '\n' ((splitList '\n' l).map f)

/-- Embeds `orgToMarkdown(org)` (lines 463-499): the ordered substitution chain —
headings, bold, italic, verbatim, code, the three link forms, list
markers, source blocks and quote blocks. -/
def orgToMarkdown (org : String) : String :=
  let s1 := mapLines headingPass org.data
  let s2 := inlineScan '*' ['*', '*'] ['*', '*'] s1.length s1
  let s3 := inlineScan '/' ['*'] ['*'] s2.length s2
  let s4 := inlineScan '=' ['`'] ['`'] s3.length s3
  let s5 := inlineScan '~' ['`'] ['`'] s4.length s4
  let s6 := orgLinkDescScan s5.length s5
  let s7 := orgLinkIdScan s6.length s6
  let s8 := extLinkScan s7.length s7
  let s9 := mapLines listMarkerPass s8
  let s10 := mapLines blockPass s9
  ⟨s10⟩

/-! ## Note records and the note assembler (`parseNote`, lines 583-674) -/

/-- Embeds `NoteType` (line 351). -/
inductive NoteType where
  | note
  | card
deriving DecidableEq, Inhabited

/-- Embeds `NoteMetadata` (lines 353-367). -/
structure NoteMetadata where
  id : String
  title : String
  slug : String
  folder : String
  tags : List String
  status : Option String := none
  certainty : Option String := none
  importance : Option String := none
  start : Option String := none
  finish : Option String := none
  preview : Option String := none
  links : List String
  noteType : NoteType
deriving DecidableEq, Inhabited

/-- Embeds `Note` (lines 369-372). -/
structure Note extends NoteMetadata where
  content : String
  htmlContent : String
deriving DecidableEq, Inhabited

/-- External collaborators of the assembler: the filesystem read (which
may throw), the `gray-matter` front-matter parser (a third-party library,
returning the recognized metadata keys and the body), and the `unified`
markdown renderer chain (a third-party library, which may throw). -/
structure Env where
  readFile : String → Except String String
  matter : String → FrontData × String
  render : String → Except String String

/-- The per-format metadata extraction of `parseNote` (lines 599-637):
synthesized for `.csv` files, the org drawer/directive extraction for
`.org` files, and the front-matter keys with their inline fallbacks
(`data.id || slug`, line 628) for every other (markdown) file. -/
def extractedMetadata (env : Env) (rel content : String) : FrontData :=
  let ext := extnameLower rel
  let slug := slugOf rel
  if ext = ".csv" then
    { id := some slug, title := some (basenameExt rel ext), tags := some ["flashcards"] }
  else if ext = ".org" then (parseOrgFile content).metadata
  else
    let d := (env.matter content).1
    { d with
      id := some (jsOrStr d.id slug),
      title := some (jsOrStr d.title (basenameExt rel ext)),
      tags := some (jsOrList d.tags []) }

/-- The assembled record of `parseNote`'s final `return` (lines 653-669),
with the fallback chain `metadata.x || default`. -/
def assembleNote (rel : String) (metadata : FrontData) (noteType : NoteType)
    (body : String) (links : List String) (htmlContent : String) : Note :=
  let ext := extnameLower rel
  let folder := dirname rel
  let slug := slugOf rel
  { id := jsOrStr metadata.id slug,
    title := jsOrStr metadata.title (basenameExt rel ext),
    slug := slug,
    folder := if folder = "." then "" else folder,
    tags := jsOrList metadata.tags [],
    status := metadata.status,
    certainty := metadata.certainty,
    importance := metadata.importance,
    start := metadata.start,
    finish := metadata.finish,
    preview := metadata.preview,
    links := links,
    noteType := noteType,
    content := body,
    htmlContent := htmlContent }

/-- The body of `parseNote` inside its `try` (lines 584-669), with each
potentially-throwing step an `Except` bind.  The file path is the path
relative to the content root (`path.relative(NOTES_DIR, filePath)`). -/
def parseNoteE (env : Env) (rel : String) : Except String Note :=
  match env.readFile rel with
  | .error e => .error e
  | .ok content =>
    let ext := extnameLower rel
    let folder := dirname rel
    let noteType : NoteType := if folder = "cards" ∨ ext = ".csv" then .card else .note
    let metadata := extractedMetadata env rel content
    if ext = ".csv" then
      .ok (assembleNote rel metadata noteType content [] (csvToHtml content))
    else if ext = ".org" then
      let body := orgToMarkdown (parseOrgFile content).body
      match env.render body with
      | .error e => .error e
      | .ok html => .ok (assembleNote rel metadata noteType body (extractLinks content true) html)
    else
      let body := (env.matter content).2
      match env.render body with
      | .error e => .error e
      | .ok html => .ok (assembleNote rel metadata noteType body (extractLinks body false) html)

/-- Embeds `parseNote` (lines 583-674): the `try`/`catch` turns any failure into
an absent value (`null`, with a logged diagnostic). -/
def parseNote (env : Env) (rel : String) : Option Note :=
  match parseNoteE env rel with
  | .ok note => some note
  | .error _ => none

/-- Embeds `getAllNotes` (lines 677-689), parametrized by the file list produced
by the corpus walker: pushes each successfully parsed note in order. -/
def getAllNotes (env : Env) (files : List String) : List Note :=
  files.foldl (fun notes file =>
    match parseNote env file with
    | some note => notes ++ [note]
    | none => notes) []

/-! ## Graph construction (`getGraphData`, lines 826-858) -/

/-- Embeds `GraphNode` (lines 809-814). -/
structure GraphNode where
  id : String
  title : String
  slug : String
  folder : String
deriving DecidableEq, Inhabited

/-- Embeds `GraphLink` (lines 816-819). -/
structure GraphLink where
  source : String
  target : String
deriving DecidableEq, Inhabited

/-- Embeds `GraphData` (lines 821-824). -/
structure GraphData where
  nodes : List GraphNode
  links : List GraphLink
deriving DecidableEq, Inhabited

/-- Embeds `Map.set`: update the entry in place when the key exists (last writer
wins), append otherwise, preserving insertion order. -/
def mapSet (m : List (String × GraphNode)) (k : String) (v : GraphNode) :
    List (String × GraphNode) :=
  match m with
  | [] => [(k, v)]
  | (k', v') :: rest => if k' = k then (k, v) :: rest else (k', v') :: mapSet rest k v

/-- Embeds `Map.has`. -/
def mapHas (m : List (String × GraphNode)) (k : String) : Bool :=
  m.any (fun p => p.1 = k)

/-- The node built from one note (lines 834-839). -/
def nodeOf (note : Note) : GraphNode :=
  { id := note.id, title := note.title, slug := note.slug, folder := note.folder }

/-- The node map of `getGraphData` (lines 829-840): one entry per unique
note identifier, in first-insertion order, the value overwritten on
identifier collision. -/
def buildNodeMap (notes : List Note) : List (String × GraphNode) :=
  notes.foldl (fun m note => mapSet m note.id (nodeOf note)) []

/-- The edges one note contributes (lines 844-851): one edge per link
identifier whose target exists in the node map. -/
def edgesFor (nm : List (String × GraphNode)) (note : Note) : List GraphLink :=
  note.links.filterMap (fun linkId =>
    if mapHas nm linkId then some { source := note.id, target := linkId } else none)

/-- The edge list of `getGraphData` (lines 843-851). -/
def buildLinks (nm : List (String × GraphNode)) : List Note → List GraphLink
  | [] => []
  | note :: rest => edgesFor nm note ++ buildLinks nm rest

/-- Embeds `getGraphData` (lines 826-858), parametrized by the note collection
(`getAllNotes()` in the source). -/
def getGraphData (notes : List Note) : GraphData :=
  let nodeMap := buildNodeMap notes
  { nodes := nodeMap.map Prod.snd, links := buildLinks nodeMap notes }

/-! ## Folder tree construction (`getFolderTree`, lines 723-806) -/

/-- Predefined folders in display order (`FOLDER_ORDER`, line 349). -/
def FOLDER_ORDER : List String :=
  ["cards", "index", "jottings", "lecture", "marginalia", "slipbox"]

/-- Embeds `FolderTree` (lines 374-379), as a nested inductive (the recursive
`children` field prevents a `structure`). -/
inductive FolderTree where
  | mk (name : String) (path : String) (children : List FolderTree)
      (notes : List NoteMetadata)
deriving Inhabited

def FolderTree.name : FolderTree → String
  | .mk n _ _ _ => n

def FolderTree.path : FolderTree → String
  | .mk _ p _ _ => p

def FolderTree.children : FolderTree → List FolderTree
  | .mk _ _ cs _ => cs

def FolderTree.notes : FolderTree → List NoteMetadata
  | .mk _ _ _ ns => ns

/-- Embeds `getOrCreateFolder` (lines 769-789) combined with the note append of
line 794, as a pure insertion into a children list: descend the path
segments, reusing an existing child with a matching name at each level and
appending a freshly created child otherwise, and append the notes to the
final node's list. -/
def insertPath (parts : List String) (curPath : String) (ns : List NoteMetadata)
    (cs : List FolderTree) : List FolderTree :=
  match parts with
  | [] => cs
  | f :: rest =>
    let newPath := if curPath = "" then f else curPath ++ "/" ++ f
    match cs with
    | [] =>
      if rest = [] then [FolderTree.mk f newPath [] ns]
      else [FolderTree.mk f newPath (insertPath rest newPath ns []) []]
    | c :: cs' =>
      if c.name = f then
        (if rest = [] then FolderTree.mk c.name c.path c.children (c.notes ++ ns)
         else FolderTree.mk c.name c.path (insertPath rest newPath ns c.children) c.notes) :: cs'
      else c :: insertPath (f :: rest) curPath ns cs'
termination_by (parts.length, cs.length)

/-- The `folderMap` grouping (lines 744-766): a JavaScript `Map` from
folder path to the notes' metadata records, keys in first-encounter order,
values appended in note order. -/
def groupInsert (m : List (String × List NoteMetadata)) (k : String) (v : NoteMetadata) :
    List (String × List NoteMetadata) :=
  match m with
  | [] => [(k, [v])]
  | (k', vs) :: rest => if k' = k then (k', vs ++ [v]) :: rest else (k', vs) :: groupInsert rest k v

def groupByFolder (notes : List Note) : List (String × List NoteMetadata) :=
  notes.foldl (fun m note => groupInsert m note.folder note.toNoteMetadata) []

/-- Stable sort of a node's notes by title under the comparator (the
source's `a.title.localeCompare(b.title)`; locale comparison is abstracted
as the comparator argument). -/
def insertSorted (cmp : String → String → Ordering) (a : NoteMetadata) :
    List NoteMetadata → List NoteMetadata
  | [] => [a]
  | b :: bs =>
    match cmp a.title b.title with
    | .gt => b :: insertSorted cmp a bs
    | _ => a :: b :: bs

def sortNotesList (cmp : String → String → Ordering) (l : List NoteMetadata) :
    List NoteMetadata :=
  l.foldr (insertSorted cmp) []

mutual

/-- Embeds `sortNotesInTree` (lines 798-801): sorts every node's note list,
leaving child order untouched. -/
def sortNotesInTree (cmp : String → String → Ordering) : FolderTree → FolderTree
  | .mk n p cs ns => .mk n p (sortForest cmp cs) (sortNotesList cmp ns)

def sortForest (cmp : String → String → Ordering) : List FolderTree → List FolderTree
  | [] => []
  | t :: ts => sortNotesInTree cmp t :: sortForest cmp ts

end

/-- Embeds `getFolderTree` (lines 723-806), parametrized by the note collection
and the locale comparator: the root pre-populated with the fixed folders,
the grouped notes inserted, then the note lists sorted. -/
def getFolderTree (cmp : String → String → Ordering) (notes : List Note) : FolderTree :=
  let root := FolderTree.mk "Notes" ""
    (FOLDER_ORDER.map (fun n => FolderTree.mk n n [] [])) []
  let filled := (groupByFolder notes).foldl (fun t kv =>
    let parts := if kv.1 = "" then [] else splitOnChar '/' kv.1
    if parts = [] then FolderTree.mk t.name t.path t.children (t.notes ++ kv.2)
    else FolderTree.mk t.name t.path (insertPath parts "" kv.2 t.children) t.notes) root
  sortNotesInTree cmp filled

/-! ## Lemmas about the deduplication of `extractLinks` -/

theorem dedup_foldl_nodup (l : List String) :
    ∀ acc : List String, acc.Nodup →
      (l.foldl (fun acc x => if x ∈ acc then acc else acc ++ [x]) acc).Nodup := by
  induction l with
  | nil => intro acc h; simpa using h
  | cons y l ih =>
    intro acc h
    simp only [List.foldl_cons]
    by_cases hy : y ∈ acc
    · simp only [if_pos hy]; exact ih acc h
    · simp only [if_neg hy]
      exact ih _ (by simp [List.nodup_append, h, hy])

theorem dedup_foldl_sublist (l : List String) :
    ∀ acc m : List String, acc.Sublist m →
      (l.foldl (fun acc x => if x ∈ acc then acc else acc ++ [x]) acc).Sublist (m ++ l) := by
  induction l with
  | nil => intro acc m h; simpa using h
  | cons y l ih =>
    intro acc m h
    simp only [List.foldl_cons]
    have hm : (m ++ [y]) ++ l = m ++ y :: l := by simp
    by_cases hy : y ∈ acc
    · simp only [if_pos hy]
      have := ih acc (m ++ [y]) (h.trans (List.sublist_append_left m [y]))
      rwa [hm] at this
    · simp only [if_neg hy]
      have := ih (acc ++ [y]) (m ++ [y]) (h.append_right [y])
      rwa [hm] at this

theorem dedup_foldl_mem (l : List String) :
    ∀ (acc : List String) (x : String),
      (x ∈ l.foldl (fun acc x => if x ∈ acc then acc else acc ++ [x]) acc ↔ x ∈ acc ∨ x ∈ l) := by
  induction l with
  | nil => intro acc x; simp
  | cons y l ih =>
    intro acc x
    simp only [List.foldl_cons]
    by_cases hy : y ∈ acc
    · simp only [if_pos hy, ih]
      constructor
      · rintro (h | h)
        · exact Or.inl h
        · exact Or.inr (List.mem_cons_of_mem _ h)
      · rintro (h | h)
        · exact Or.inl h
        · rcases List.mem_cons.mp h with rfl | h
          · exact Or.inl hy
          · exact Or.inr h
    · simp only [if_neg hy, ih]
      simp only [List.mem_append, List.mem_singleton, List.mem_cons]
      tauto

theorem dedupKeepFirst_nodup (l : List String) : (dedupKeepFirst l).Nodup :=
  dedup_foldl_nodup l [] List.nodup_nil

theorem dedupKeepFirst_sublist (l : List String) : (dedupKeepFirst l).Sublist l := by
  have := dedup_foldl_sublist l [] [] (List.Sublist.refl [])
  simpa using this

theorem dedupKeepFirst_mem (l : List String) (x : String) :
    x ∈ dedupKeepFirst l ↔ x ∈ l := by
  have := dedup_foldl_mem l [] x
  simpa using this

/-! ## Demonstration corpus

A concrete environment whose files exercise the behaviors the claims are
about; the external renderer succeeds with the identity, the external
front-matter parser returns no recognized key. -/

def contentA : String := ":PROPERTIES:\n:ID: a\n:END:\nSee [[id:b]] and [[id:b]].\n"

def contentB : String := ":PROPERTIES:\n:ID: b\n:END:\nHello\n"

def contentSelf : String := ":PROPERTIES:\n:ID: s\n:END:\nMe [[id:s]]\n"

def contentGhost : String := ":PROPERTIES:\n:ID: g\n:END:\nSee [[id:ghost]]\n"

def contentEmptyId : String := ":PROPERTIES:\n:ID:\n:END:\nBody\n"

def demoEnv : Env :=
  { readFile := fun p =>
      if p = "slipbox/a.org" then .ok contentA
      else if p = "slipbox/b.org" then .ok contentB
      else if p = "slipbox/self.org" then .ok contentSelf
      else if p = "slipbox/ghost.org" then .ok contentGhost
      else if p = "slipbox/empty-id.org" then .ok contentEmptyId
      else if p = "cards/deck.md" then .ok "a card note"
      else if p = "cards/sub/deep.md" then .ok "a nested note"
      else .error "ENOENT",
    matter := fun s => ({}, s),
    render := fun s => .ok s }

/-- The two-note corpus where `a`'s source text references `b` twice. -/
def notesAB : List Note := getAllNotes demoEnv ["slipbox/a.org", "slipbox/b.org"]

def noteA : Note := notesAB.headD default

/-! ## C3 -/

/-- C3: for every input text and format, `extractLinks` returns a
duplicate-free subsequence of the matched references containing exactly
the referenced identifiers; on text referencing `a` twice and `b` once it
returns exactly `[a, b]`. -/
theorem claim_C3_extractLinks_dedup :
    (∀ (content : String) (isOrg : Bool),
        (extractLinks content isOrg).Nodup
      ∧ (extractLinks content isOrg).Sublist (rawLinks content isOrg)
      ∧ (∀ x, x ∈ extractLinks content isOrg ↔ x ∈ rawLinks content isOrg))
    ∧ rawLinks "see [[id:a]] and [[id:a]] then [[id:b]] end" true = ["a", "a", "b"]
    ∧ extractLinks "see [[id:a]] and [[id:a]] then [[id:b]] end" true = ["a", "b"] := by
  refine ⟨fun content isOrg => ⟨dedupKeepFirst_nodup _, dedupKeepFirst_sublist _,
    fun x => dedupKeepFirst_mem _ x⟩, by decide, by decide⟩

/-! ## C1 -/

/-- C1 as stated is false: the note at `slipbox/a.org` references the
existing target `b` twice in its source text, yet the graph contains a
single `a → b` edge, because `extractLinks` deduplicates before the edge
loop runs. -/
theorem claim_C1_counterexample :
    demoEnv.readFile "slipbox/a.org" = .ok contentA
    ∧ rawLinks contentA true = ["b", "b"]
    ∧ (getGraphData notesAB).links = [GraphLink.mk "a" "b"] := by
  refine ⟨rfl, by decide, by decide⟩

/-- C1 amended: each note contributes at most one edge per target, because
the note's `links` list is deduplicated at extraction; in particular the
note whose source references `b` twice yields exactly one `a → b` edge. -/
theorem claim_C1_amended :
    (∀ (content : String) (isOrg : Bool), (extractLinks content isOrg).Nodup)
    ∧ (∀ (nm : List (String × GraphNode)) (note : Note),
        note.links.Nodup → (edgesFor nm note).Nodup)
    ∧ (getGraphData notesAB).links = [GraphLink.mk "a" "b"] := by
  refine ⟨fun content isOrg => dedupKeepFirst_nodup _, ?_, by decide⟩
  intro nm note h
  refine List.Nodup.filterMap ?_ h
  intro a b c hca hcb
  simp only [Option.mem_def] at hca hcb
  by_cases ha : mapHas nm a = true
  · by_cases hb : mapHas nm b = true
    · simp only [edgesFor, ha, hb, if_true, Option.some.injEq] at hca hcb
      have := hca.trans hcb.symm
      exact (GraphLink.mk.injEq _ _ _ _).mp this |>.2
    · simp [hb] at hcb
  · simp [ha] at hca

/-- Witness for the hypothesis of the second part of the amended C1. -/
theorem claim_C1_amended_witness :
    (edgesFor (buildNodeMap notesAB) noteA).Nodup :=
  claim_C1_amended.2.1 (buildNodeMap notesAB) noteA (by decide)

/-! ## Lemmas about the graph builder -/

theorem mapHas_iff (m : List (String × GraphNode)) (x : String) :
    mapHas m x = true ↔ ∃ p ∈ m, p.1 = x := by
  simp [mapHas, List.any_eq_true]

theorem mem_mapSet (m : List (String × GraphNode)) (k : String) (v : GraphNode)
    (p : String × GraphNode) : p ∈ mapSet m k v → p ∈ m ∨ p = (k, v) := by
  induction m with
  | nil => intro h; simp only [mapSet] at h; right; simpa using h
  | cons q rest ih =>
    intro h
    simp only [mapSet] at h
    by_cases hq : q.1 = k
    · rw [if_pos hq] at h
      rcases List.mem_cons.mp h with rfl | h
      · exact Or.inr rfl
      · exact Or.inl (List.mem_cons_of_mem _ h)
    · rw [if_neg hq] at h
      rcases List.mem_cons.mp h with rfl | h
      · exact Or.inl (List.mem_cons_self _ _)
      · rcases ih h with h | h
        · exact Or.inl (List.mem_cons_of_mem _ h)
        · exact Or.inr h

theorem mapHas_mapSet (m : List (String × GraphNode)) (k : String) (v : GraphNode)
    (x : String) : mapHas (mapSet m k v) x = true ↔ x = k ∨ mapHas m x = true := by
  induction m with
  | nil => simp [mapSet, mapHas, eq_comm]
  | cons q rest ih =>
    simp only [mapSet, mapHas, List.any_cons] at ih ⊢
    by_cases hq : q.1 = k
    · rw [if_pos hq]
      simp only [List.any_cons, Bool.or_eq_true, decide_eq_true_eq]
      rw [hq]
      constructor
      · rintro (h | h)
        · exact Or.inl h.symm
        · exact Or.inr (Or.inr h)
      · rintro (h | h | h)
        · exact Or.inl h.symm
        · exact Or.inl h
        · exact Or.inr h
    · simp only [if_neg hq, List.any_cons, Bool.or_eq_true, decide_eq_true_eq] at ih ⊢
      rw [ih]
      tauto

theorem mapHas_buildNodeMap_aux (notes : List Note) :
    ∀ (m : List (String × GraphNode)) (k : String),
      mapHas (notes.foldl (fun m note => mapSet m note.id (nodeOf note)) m) k = true
        ↔ mapHas m k = true ∨ k ∈ notes.map (fun n => n.id) := by
  induction notes with
  | nil => intro m k; simp
  | cons n rest ih =>
    intro m k
    simp only [List.foldl_cons, List.map_cons, List.mem_cons]
    rw [ih, mapHas_mapSet]
    tauto

/-- A key is present in the node map exactly when some note carries it as
its identifier. -/
theorem mapHas_buildNodeMap (notes : List Note) (k : String) :
    mapHas (buildNodeMap notes) k = true ↔ k ∈ notes.map (fun n => n.id) := by
  have := mapHas_buildNodeMap_aux notes [] k
  simpa [buildNodeMap, mapHas] using this

/-- Every entry of the node map pairs a key with the node having that
identifier, the key being some note's identifier. -/
theorem buildNodeMap_entries (notes : List Note) :
    ∀ p ∈ buildNodeMap notes, p.2.id = p.1 ∧ p.1 ∈ notes.map (fun n => n.id) := by
  have aux : ∀ (rest : List Note) (m : List (String × GraphNode)),
      (∀ p ∈ m, p.2.id = p.1 ∧ p.1 ∈ notes.map (fun n => n.id)) →
      (∀ n ∈ rest, n ∈ notes) →
      ∀ p ∈ rest.foldl (fun m note => mapSet m note.id (nodeOf note)) m,
        p.2.id = p.1 ∧ p.1 ∈ notes.map (fun n => n.id) := by
    intro rest
    induction rest with
    | nil => intro m hm _ p hp; exact hm p hp
    | cons n rs ih =>
      intro m hm hrest p hp
      simp only [List.foldl_cons] at hp
      refine ih _ ?_ (fun n' hn' => hrest n' (List.mem_cons_of_mem _ hn')) p hp
      intro q hq
      rcases mem_mapSet _ _ _ _ hq with hq | rfl
      · exact hm q hq
      · exact ⟨rfl, List.mem_map.mpr ⟨n, hrest n (List.mem_cons_self _ _), rfl⟩⟩
  exact aux notes [] (by simp) (fun n hn => hn)

theorem mem_edgesFor (nm : List (String × GraphNode)) (n : Note) (e : GraphLink) :
    e ∈ edgesFor nm n ↔ ∃ l ∈ n.links, mapHas nm l = true ∧ e = GraphLink.mk n.id l := by
  simp only [edgesFor, List.mem_filterMap]
  constructor
  · rintro ⟨l, hl, he⟩
    by_cases h : mapHas nm l = true
    · rw [if_pos h] at he
      exact ⟨l, hl, h, (Option.some.injEq _ _).mp he |>.symm⟩
    · rw [if_neg h] at he
      cases he
  · rintro ⟨l, hl, h, rfl⟩
    exact ⟨l, hl, by rw [if_pos h]⟩

theorem mem_buildLinks (nm : List (String × GraphNode)) (notes : List Note) (e : GraphLink) :
    e ∈ buildLinks nm notes ↔ ∃ n ∈ notes, e ∈ edgesFor nm n := by
  induction notes with
  | nil => simp [buildLinks]
  | cons n rest ih =>
    simp only [buildLinks, List.mem_append, ih, List.mem_cons]
    constructor
    · rintro (h | ⟨n', hn', h⟩)
      · exact ⟨n, Or.inl rfl, h⟩
      · exact ⟨n', Or.inr hn', h⟩
    · rintro ⟨n', (rfl | hn'), h⟩
      · exact Or.inl h
      · exact Or.inr ⟨n', hn', h⟩

/-! ## C2 -/

/-- The one-note corpus whose note links to its own identifier. -/
def notesSelf : List Note := getAllNotes demoEnv ["slipbox/self.org"]

def noteSelf : Note := notesSelf.headD default

/-- C2 as stated is false: the corpus of the single note `s`, whose links
list contains its own identifier, produces a graph whose edge list is
exactly the self-loop `s → s` — the source only drops links whose target
is missing from the node map, and a note's own identifier is always
present there. -/
theorem claim_C2_counterexample :
    notesSelf.map (fun n => n.id) = ["s"]
    ∧ notesSelf.map (fun n => n.links) = [["s"]]
    ∧ (getGraphData notesSelf).links = [GraphLink.mk "s" "s"] := by
  refine ⟨by decide, by decide, by decide⟩

/-- C2 amended: whenever a note's links list contains the note's own
identifier, the graph contains the corresponding self-loop edge (and no
error is reported — `getGraphData` is total). -/
theorem claim_C2_amended (notes : List Note) (n : Note) (hn : n ∈ notes)
    (hself : n.id ∈ n.links) :
    GraphLink.mk n.id n.id ∈ (getGraphData notes).links := by
  have hhas : mapHas (buildNodeMap notes) n.id = true :=
    (mapHas_buildNodeMap notes n.id).mpr (List.mem_map.mpr ⟨n, hn, rfl⟩)
  show GraphLink.mk n.id n.id ∈ buildLinks (buildNodeMap notes) notes
  exact (mem_buildLinks _ _ _).mpr
    ⟨n, hn, (mem_edgesFor _ _ _).mpr ⟨n.id, hself, hhas, rfl⟩⟩

/-- Witness: the amended C2 applied to the concrete self-linking corpus. -/
theorem claim_C2_amended_witness :
    GraphLink.mk noteSelf.id noteSelf.id ∈ (getGraphData notesSelf).links :=
  claim_C2_amended notesSelf noteSelf (by decide) (by decide)

/-! ## C4 -/

/-- The one-note corpus whose note links to a missing identifier. -/
def notesGhost : List Note := getAllNotes demoEnv ["slipbox/ghost.org"]

/-- C4: every edge of the graph targets an identifier for which a node
exists; an identifier carried by some note's links but matching no note
in the corpus produces no edge at all; concretely, the corpus whose only
note links to the missing identifier `ghost` yields an empty edge list
(and no error). -/
theorem claim_C4_edges_resolve :
    (∀ (notes : List Note) (e : GraphLink), e ∈ (getGraphData notes).links →
      ∃ node ∈ (getGraphData notes).nodes, node.id = e.target)
    ∧ (∀ (notes : List Note) (l : String), l ∉ notes.map (fun n => n.id) →
        ∀ e ∈ (getGraphData notes).links, e.target ≠ l)
    ∧ notesGhost.map (fun n => n.links) = [["ghost"]]
    ∧ (getGraphData notesGhost).links = [] := by
  have main : ∀ (notes : List Note) (e : GraphLink), e ∈ (getGraphData notes).links →
      ∃ node ∈ (getGraphData notes).nodes, node.id = e.target ∧ node.id ∈ notes.map (fun n => n.id) := by
    intro notes e he
    have he' : e ∈ buildLinks (buildNodeMap notes) notes := he
    rcases (mem_buildLinks _ _ _).mp he' with ⟨n, _, hedge⟩
    rcases (mem_edgesFor _ _ _).mp hedge with ⟨l, _, hhas, rfl⟩
    rcases (mapHas_iff _ _).mp hhas with ⟨p, hp, hpk⟩
    rcases buildNodeMap_entries notes p hp with ⟨hid, hkey⟩
    refine ⟨p.2, ?_, ?_, ?_⟩
    · show p.2 ∈ (buildNodeMap notes).map Prod.snd
      exact List.mem_map.mpr ⟨p, hp, rfl⟩
    · rw [hid, hpk]
    · rw [hid, hpk]; rw [hpk] at hkey; exact hkey
  refine ⟨?_, ?_, by decide, by decide⟩
  · intro notes e he
    rcases main notes e he with ⟨node, h1, h2, _⟩
    exact ⟨node, h1, h2⟩
  · intro notes l hl e he htgt
    rcases main notes e he with ⟨node, _, h2, h3⟩
    rw [h2, htgt] at h3
    exact hl h3

/-- Witness: the resolution part of C4 applied to the concrete edge
`a → b` of the two-note corpus. -/
theorem claim_C4_witness :
    ∃ node ∈ (getGraphData notesAB).nodes, node.id = (GraphLink.mk "a" "b").target :=
  claim_C4_edges_resolve.1 notesAB (GraphLink.mk "a" "b") (by decide)

/-! ## C5 -/

/-- Every successfully parsed note's `id`, `title` and `tags` are the
JavaScript `||` fallbacks applied to the extracted metadata. -/
theorem parseNote_fields (env : Env) (rel content : String) (note : Note)
    (hread : env.readFile rel = Except.ok content)
    (hparse : parseNote env rel = some note) :
    note.id = jsOrStr (extractedMetadata env rel content).id (slugOf rel)
    ∧ note.title = jsOrStr (extractedMetadata env rel content).title
        (basenameExt rel (extnameLower rel))
    ∧ note.tags = jsOrList (extractedMetadata env rel content).tags [] := by
  simp only [parseNote, parseNoteE, hread] at hparse
  by_cases hcsv : extnameLower rel = ".csv"
  · simp only [if_pos hcsv] at hparse
    cases hparse
    simp [assembleNote]
  · simp only [if_neg hcsv] at hparse
    by_cases horg : extnameLower rel = ".org"
    · simp only [if_pos horg] at hparse
      rcases hr : env.render (orgToMarkdown (parseOrgFile content).body) with e | html
      · rw [hr] at hparse; cases hparse
      · rw [hr] at hparse
        cases hparse
        simp [assembleNote]
    · simp only [if_neg horg] at hparse
      rcases hr : env.render (env.matter content).2 with e | html
      · rw [hr] at hparse; cases hparse
      · rw [hr] at hparse
        cases hparse
        simp [assembleNote]

/-- C5 as stated is false: the org file `slipbox/empty-id.org` carries a
property drawer line `:ID:` whose value is extracted as the (present)
empty string, yet the assembled identifier is the slug, not that extracted
value — the fallback uses JavaScript truthiness and the empty string is
falsy. -/
theorem claim_C5_counterexample :
    (extractedMetadata demoEnv "slipbox/empty-id.org" contentEmptyId).id = some ""
    ∧ demoEnv.readFile "slipbox/empty-id.org" = Except.ok contentEmptyId
    ∧ (parseNote demoEnv "slipbox/empty-id.org").map (fun n => n.id) = some "slipbox/empty-id"
    ∧ slugOf "slipbox/empty-id.org" = "slipbox/empty-id"
    ∧ ("slipbox/empty-id" : String) ≠ "" := by
  refine ⟨by decide, rfl, by decide, by decide, by decide⟩

/-- C5 amended: the identifier equals the extracted id when present and
non-empty, otherwise the slug; the title equals the extracted title when
present and non-empty, otherwise the filename stem (present-but-empty
strings fall back, by JavaScript truthiness); the tags equal the extracted
tags whenever present — even as the empty list — and default to the empty
list otherwise. -/
theorem claim_C5_amended (env : Env) (rel content : String) (note : Note)
    (hread : env.readFile rel = Except.ok content)
    (hparse : parseNote env rel = some note) :
    ((extractedMetadata env rel content).id = none
        ∨ (extractedMetadata env rel content).id = some "" → note.id = slugOf rel)
    ∧ (∀ s, s ≠ "" → (extractedMetadata env rel content).id = some s → note.id = s)
    ∧ ((extractedMetadata env rel content).title = none
        ∨ (extractedMetadata env rel content).title = some "" →
          note.title = basenameExt rel (extnameLower rel))
    ∧ (∀ s, s ≠ "" → (extractedMetadata env rel content).title = some s → note.title = s)
    ∧ ((extractedMetadata env rel content).tags = none → note.tags = [])
    ∧ (∀ ts, (extractedMetadata env rel content).tags = some ts → note.tags = ts) := by
  obtain ⟨hid, htitle, htags⟩ := parseNote_fields env rel content note hread hparse
  refine ⟨?_, ?_, ?_, ?_, ?_, ?_⟩
  · rintro (h | h) <;> rw [hid, h] <;> simp [jsOrStr]
  · intro s hs h; rw [hid, h]; simp [jsOrStr, hs]
  · rintro (h | h) <;> rw [htitle, h] <;> simp [jsOrStr]
  · intro s hs h; rw [htitle, h]; simp [jsOrStr, hs]
  · intro h; rw [htags, h]; simp [jsOrList]
  · intro ts h; rw [htags, h]; simp [jsOrList]

def noteEmptyId : Note := (parseNote demoEnv "slipbox/empty-id.org").getD default

/-- Witness: the amended C5 applied to the parsed `slipbox/empty-id.org`,
whose present-but-empty extracted id falls back to the slug. -/
theorem claim_C5_amended_witness :
    noteEmptyId.id = slugOf "slipbox/empty-id.org" :=
  (claim_C5_amended demoEnv "slipbox/empty-id.org" contentEmptyId noteEmptyId
    rfl (by decide)).1 (Or.inr (by decide))

/-! ## Lemmas about splitting and joining on a separator -/

theorem string_ext {s t : String} (h : s.data = t.data) : s = t := by
  cases s; cases t; exact congrArg String.mk h

theorem joinList_cons (c : Char) (a : List Char) (t : List (List Char)) :
    joinList c (a :: t) = a ++ (if t = [] then [] else c :: joinList c t) := by
  cases t with
  | nil => simp [joinList]
  | cons u us => simp [joinList]

theorem joinList_splitListCore (c : Char) (l : List Char) :
    joinList c ((splitListCore c l).1 :: (splitListCore c l).2) = l := by
  induction l with
  | nil => rfl
  | cons x xs ih =>
    simp only [splitListCore]
    by_cases hx : x = c
    · rw [if_pos hx]
      rw [joinList_cons]
      rw [if_neg (List.cons_ne_nil _ _), List.nil_append, ih, hx]
    · rw [if_neg hx]
      rw [joinList_cons] at ih ⊢
      simp only [List.cons_append]
      rw [ih]

theorem joinList_splitList (c : Char) (l : List Char) :
    joinList c (splitList c l) = l :=
  joinList_splitListCore c l

theorem splitListCore_sep_free (c : Char) (l : List Char) :
    c ∉ (splitListCore c l).1 ∧ ∀ p ∈ (splitListCore c l).2, c ∉ p := by
  induction l with
  | nil => exact ⟨List.not_mem_nil c, by simp [splitListCore]⟩
  | cons x xs ih =>
    simp only [splitListCore]
    by_cases hx : x = c
    · rw [if_pos hx]
      refine ⟨List.not_mem_nil c, ?_⟩
      intro p hp
      rcases List.mem_cons.mp hp with rfl | hp
      · exact ih.1
      · exact ih.2 p hp
    · rw [if_neg hx]
      refine ⟨?_, ih.2⟩
      intro hc
      rcases List.mem_cons.mp hc with rfl | hc
      · exact hx rfl
      · exact ih.1 hc

theorem splitList_sep_free (c : Char) (l : List Char) :
    ∀ p ∈ splitList c l, c ∉ p := by
  intro p hp
  rcases List.mem_cons.mp hp with rfl | hp
  · exact (splitListCore_sep_free c l).1
  · exact (splitListCore_sep_free c l).2 p hp

theorem splitListCore_no_sep (c : Char) (xs : List Char) (h : c ∉ xs) :
    splitListCore c xs = (xs, []) := by
  induction xs with
  | nil => rfl
  | cons x rest ih =>
    simp only [splitListCore]
    have hx : x ≠ c := fun hx => h (hx ▸ List.mem_cons_self x rest)
    rw [if_neg hx, ih (fun hc => h (List.mem_cons_of_mem x hc))]

theorem splitListCore_append_sep (c : Char) (xs ys : List Char) (h : c ∉ xs) :
    splitListCore c (xs ++ c :: ys) = (xs, splitList c ys) := by
  induction xs with
  | nil => simp [splitListCore, splitList]
  | cons x rest ih =>
    have hx : x ≠ c := fun hx => h (hx ▸ List.mem_cons_self x rest)
    have ih' := ih (fun hc => h (List.mem_cons_of_mem x hc))
    rw [List.cons_append]
    show (let r := splitListCore c (rest ++ c :: ys);
      if x = c then ([], r.1 :: r.2) else (x :: r.1, r.2)) = (x :: rest, splitList c ys)
    rw [ih']
    simp [hx]

theorem joinList_sep_mem (c : Char) (l : List (List Char)) (h : 2 ≤ l.length) :
    c ∈ joinList c l := by
  match l, h with
  | x :: y :: rest, _ =>
    simp only [joinList]
    exact List.mem_append_right x (List.mem_cons_self c _)

/-- A relative path has directory part `d` (a non-`.`, separator-free
name) exactly when it is `d`, a slash, and a final separator-free
component. -/
theorem dirname_eq (d : String) (hd : '/' ∉ d.data) (hdot : d ≠ ".") (rel : String) :
    dirname rel = d ↔ ∃ base : String, '/' ∉ base.data ∧ rel = d ++ "/" ++ base := by
  have hslash : ("/" : String).data = ['/'] := rfl
  constructor
  · intro h
    unfold dirname at h
    rcases hcore : splitListCore '/' rel.data with ⟨first, pieces⟩
    have hsplit : splitList '/' rel.data = first :: pieces := by
      simp [splitList, hcore]
    rw [hsplit] at h
    cases pieces with
    | nil => exact absurd (show ("." : String) = d from h).symm hdot
    | cons p ps =>
      cases ps with
      | nil =>
        simp only [List.dropLast_cons₂, List.dropLast_single, joinList] at h
        refine ⟨⟨p⟩, ?_, ?_⟩
        · exact (splitListCore_sep_free '/' rel.data).2 p
            (by rw [hcore]; exact List.mem_cons_self _ _)
        · have hjoin := joinList_splitList '/' rel.data
          rw [hsplit] at hjoin
          simp only [joinList] at hjoin
          apply string_ext
          rw [String.data_append, String.data_append, hslash]
          have hfirst : first = d.data := by
            have := congrArg String.data h
            simpa using this
          rw [← hjoin, hfirst]
          simp
      | cons q qs =>
        exfalso
        have hlen : 2 ≤ ((first :: p :: q :: qs).dropLast).length := by
          simp [List.length_dropLast]
        have hmem : '/' ∈ joinList '/' ((first :: p :: q :: qs).dropLast) :=
          joinList_sep_mem '/' _ hlen
        rw [show joinList '/' ((first :: p :: q :: qs).dropLast) = d.data from by
          simpa using congrArg String.data h] at hmem
        exact hd hmem
  · rintro ⟨base, hb, rfl⟩
    have hdata : (d ++ "/" ++ base).data = d.data ++ '/' :: base.data := by
      rw [String.data_append, String.data_append, hslash]
      simp
    unfold dirname
    rw [hdata, show splitList '/' (d.data ++ '/' :: base.data)
        = [d.data, base.data] from by
      simp [splitList, splitListCore_append_sep '/' d.data base.data hd,
        splitListCore_no_sep '/' base.data hb]]
    show (⟨joinList '/' ([d.data, base.data]).dropLast⟩ : String) = d
    simp only [List.dropLast_cons₂, List.dropLast_single, joinList]

/-! ## C6 -/

/-- Every successfully parsed note's type is the source's classification
`folder === "cards" || ext === ".csv" ? "card" : "note"` (line 592). -/
theorem parseNote_noteType (env : Env) (rel : String) (note : Note)
    (hparse : parseNote env rel = some note) :
    note.noteType = if dirname rel = "cards" ∨ extnameLower rel = ".csv"
      then NoteType.card else NoteType.note := by
  rcases hread : env.readFile rel with e | content
  · simp [parseNote, parseNoteE, hread] at hparse
  · simp only [parseNote, parseNoteE, hread] at hparse
    by_cases hcsv : extnameLower rel = ".csv"
    · simp only [if_pos hcsv] at hparse
      cases hparse
      simp [assembleNote]
    · simp only [if_neg hcsv] at hparse
      by_cases horg : extnameLower rel = ".org"
      · simp only [if_pos horg] at hparse
        rcases hr : env.render (orgToMarkdown (parseOrgFile content).body) with e | html
        · rw [hr] at hparse; cases hparse
        · rw [hr] at hparse
          cases hparse
          simp [assembleNote]
      · simp only [if_neg horg] at hparse
        rcases hr : env.render (env.matter content).2 with e | html
        · rw [hr] at hparse; cases hparse
        · rw [hr] at hparse
          cases hparse
          simp [assembleNote]

def noteDeck : Note := (parseNote demoEnv "cards/deck.md").getD default

/-- C6: the assembled note is a `card` exactly when the file lives
directly under the `cards` folder (one separator-free component below it)
or has the `.csv` extension; concretely, a markdown file directly under
`cards/` is a card, and one in a deeper subfolder of `cards/` is not. -/
theorem claim_C6_noteType :
    (∀ (env : Env) (rel : String) (note : Note), parseNote env rel = some note →
      (note.noteType = NoteType.card ↔
        (∃ base : String, '/' ∉ base.data ∧ rel = "cards" ++ "/" ++ base)
        ∨ extnameLower rel = ".csv"))
    ∧ (parseNote demoEnv "cards/deck.md").map (fun n => n.noteType) = some NoteType.card
    ∧ (parseNote demoEnv "cards/sub/deep.md").map (fun n => n.noteType) = some NoteType.note := by
  refine ⟨?_, by decide, by decide⟩
  intro env rel note hparse
  rw [parseNote_noteType env rel note hparse]
  have hiff := dirname_eq "cards" (by decide) (by decide) rel
  by_cases h : dirname rel = "cards" ∨ extnameLower rel = ".csv"
  · rw [if_pos h]
    simp only [true_iff]
    rcases h with h | h
    · exact Or.inl (hiff.mp h)
    · exact Or.inr h
  · rw [if_neg h]
    constructor
    · intro hc; cases hc
    · rintro (⟨base, hb, rfl⟩ | hc)
      · exact absurd (Or.inl (hiff.mpr ⟨base, hb, rfl⟩)) h
      · exact absurd (Or.inr hc) h

/-- Witness: C6 applied to the parsed markdown file directly under
`cards/`. -/
theorem claim_C6_witness :
    noteDeck.noteType = NoteType.card :=
  (claim_C6_noteType.1 demoEnv "cards/deck.md" noteDeck (by decide)).mpr
    (Or.inl ⟨"deck.md", by decide, by decide⟩)

/-! ## C7 -/

theorem FolderTree.name_mk (n p : String) (cs : List FolderTree) (ns : List NoteMetadata) :
    (FolderTree.mk n p cs ns).name = n := rfl

theorem FolderTree.children_mk (n p : String) (cs : List FolderTree) (ns : List NoteMetadata) :
    (FolderTree.mk n p cs ns).children = cs := rfl

theorem sortNotesInTree_name (cmp : String → String → Ordering) (t : FolderTree) :
    (sortNotesInTree cmp t).name = t.name := by
  cases t; rfl

theorem sortForest_names (cmp : String → String → Ordering) (cs : List FolderTree) :
    (sortForest cmp cs).map FolderTree.name = cs.map FolderTree.name := by
  induction cs with
  | nil => rfl
  | cons t ts ih => simp [sortForest, sortNotesInTree_name, ih]

theorem sortNotesInTree_children_names (cmp : String → String → Ordering) (t : FolderTree) :
    ((sortNotesInTree cmp t).children).map FolderTree.name
      = (t.children).map FolderTree.name := by
  cases t
  simp [sortNotesInTree, FolderTree.children, sortForest_names]

/-- Inserting a folder path into a children list only ever appends new
names at the end: the existing names, in order, stay a prefix. -/
theorem insertPath_names (f : String) (rest : List String) (curPath : String)
    (ns : List NoteMetadata) (cs : List FolderTree) :
    ∃ extra, (insertPath (f :: rest) curPath ns cs).map FolderTree.name
      = cs.map FolderTree.name ++ extra := by
  induction cs with
  | nil =>
    refine ⟨[f], ?_⟩
    simp only [insertPath]
    by_cases h : rest = []
    · rw [if_pos h]; rfl
    · rw [if_neg h]; rfl
  | cons c cs' ih =>
    simp only [insertPath]
    by_cases h : c.name = f
    · rw [if_pos h]
      refine ⟨[], ?_⟩
      by_cases hr : rest = []
      · rw [if_pos hr]; simp [FolderTree.name]
      · rw [if_neg hr]; simp [FolderTree.name]
    · rw [if_neg h]
      rcases ih with ⟨extra, hextra⟩
      exact ⟨extra, by simp [hextra]⟩

/-- The grouped-note insertion pass preserves the children names of the
root as a prefix, appending only newly discovered folder names. -/
theorem foldl_insert_children_names (kvs : List (String × List NoteMetadata)) :
    ∀ t : FolderTree, ∃ extra,
      ((kvs.foldl (fun t kv =>
        let parts := if kv.1 = "" then [] else splitOnChar '/' kv.1
        if parts = [] then FolderTree.mk t.name t.path t.children (t.notes ++ kv.2)
        else FolderTree.mk t.name t.path (insertPath parts "" kv.2 t.children) t.notes) t).children).map FolderTree.name
      = (t.children).map FolderTree.name ++ extra := by
  induction kvs with
  | nil => intro t; exact ⟨[], by simp⟩
  | cons kv kvs ih =>
    intro t
    simp only [List.foldl_cons]
    by_cases hk : kv.1 = ""
    · simp only [hk, if_pos rfl, if_pos rfl]
      rcases ih (FolderTree.mk t.name t.path t.children (t.notes ++ kv.2)) with ⟨extra, hextra⟩
      exact ⟨extra, by simpa [FolderTree.children_mk] using hextra⟩
    · have hsplit : splitOnChar '/' kv.1
          = (⟨(splitListCore '/' kv.1.data).1⟩ : String)
            :: ((splitListCore '/' kv.1.data).2).map (fun l => ⟨l⟩) := by
        simp [splitOnChar, splitList]
      simp only [if_neg hk]
      rw [hsplit]
      simp only [if_neg (List.cons_ne_nil _ _)]
      rcases insertPath_names (⟨(splitListCore '/' kv.1.data).1⟩ : String)
          (((splitListCore '/' kv.1.data).2).map (fun l => ⟨l⟩)) "" kv.2 t.children with ⟨e1, he1⟩
      rcases ih (FolderTree.mk t.name t.path
          (insertPath ((⟨(splitListCore '/' kv.1.data).1⟩ : String)
            :: ((splitListCore '/' kv.1.data).2).map (fun l => ⟨l⟩)) "" kv.2 t.children) t.notes)
        with ⟨e2, he2⟩

      refine ⟨e1 ++ e2, ?_⟩
      rw [he2]
      simp only [FolderTree.children_mk]
      rw [he1, List.append_assoc]

/-- C7: the folder tree's root children always begin with the six fixed
top-level folders, in declared order, before any dynamically discovered
folder, and for the empty collection they are exactly those six. -/
theorem claim_C7_fixed_folders :
    (∀ cmp, ((getFolderTree cmp []).children).map FolderTree.name
      = ["cards", "index", "jottings", "lecture", "marginalia", "slipbox"])
    ∧ (∀ (cmp : String → String → Ordering) (notes : List Note),
      ∃ extra, ((getFolderTree cmp notes).children).map FolderTree.name
        = FOLDER_ORDER ++ extra) := by
  constructor
  · intro cmp
    rfl
  · intro cmp notes
    unfold getFolderTree
    rw [sortNotesInTree_children_names]
    rcases foldl_insert_children_names (groupByFolder notes)
        (FolderTree.mk "Notes" "" (FOLDER_ORDER.map (fun n => FolderTree.mk n n [] [])) [])
      with ⟨extra, hextra⟩
    refine ⟨extra, ?_⟩
    rw [hextra]
    simp [FolderTree.children, FolderTree.name, List.map_map, Function.comp]
    rfl

/-! ## C9 -/

theorem getAllNotes_foldl (env : Env) (files : List String) :
    ∀ acc : List Note,
      files.foldl (fun notes file =>
        match parseNote env file with
        | some note => notes ++ [note]
        | none => notes) acc = acc ++ files.filterMap (parseNote env) := by
  induction files with
  | nil => intro acc; simp
  | cons f fs ih =>
    intro acc
    simp only [List.foldl_cons, List.filterMap_cons]
    rcases h : parseNote env f with _ | n
    · simpa using ih acc
    · rw [ih (acc ++ [n])]
      simp

/-- C9: `getAllNotes` is total — every failure inside `parseNote`
(filesystem read or renderer, both embedded as `Except`) is absorbed into
an absent value — and the collection is exactly the successfully parsed
notes in file order: a failing file is omitted while every other file's
note is still included.  Concretely, a corpus with an unreadable middle
file yields the other two notes. -/
theorem claim_C9_parse_isolation :
    (∀ (env : Env) (files : List String),
      getAllNotes env files = files.filterMap (parseNote env))
    ∧ (∀ (env : Env) (files : List String) (f : String) (n : Note),
        f ∈ files → parseNote env f = some n → n ∈ getAllNotes env files)
    ∧ parseNote demoEnv "slipbox/bad.org" = none
    ∧ (getAllNotes demoEnv ["slipbox/a.org", "slipbox/bad.org", "slipbox/b.org"]).map
        (fun n => n.id) = ["a", "b"] := by
  have hmain : ∀ (env : Env) (files : List String),
      getAllNotes env files = files.filterMap (parseNote env) := by
    intro env files
    have := getAllNotes_foldl env files []
    simpa [getAllNotes] using this
  refine ⟨hmain, ?_, by decide, by decide⟩
  intro env files f n hf hp
  rw [hmain]
  exact List.mem_filterMap.mpr ⟨f, hf, hp⟩

/-- Witness: the inclusion part of C9 applied to the corpus with an
unreadable middle file. -/
theorem claim_C9_witness :
    noteA ∈ getAllNotes demoEnv ["slipbox/a.org", "slipbox/bad.org", "slipbox/b.org"] :=
  claim_C9_parse_isolation.2.1 demoEnv ["slipbox/a.org", "slipbox/bad.org", "slipbox/b.org"]
    "slipbox/a.org" noteA (by decide) (by decide)

/-! ## C10 -/

theorem strStartsWith_append (p r : String) : strStartsWith (p ++ r) p = true := by
  unfold strStartsWith
  rw [String.data_append, List.take_left]
  exact beq_self_eq_true p.data

/-- C10: the zero-lines guard of `csvToHtml` is unreachable — splitting
any trimmed string on newlines yields at least one element — so the
result always begins with the table opening markup; the empty flashcard
file renders as a table whose header row is a single empty cell. -/
theorem claim_C10_csv_guard :
    (∀ csv, splitLines (jsTrim csv) ≠ [])
    ∧ (∀ csv, strStartsWith (csvToHtml csv) "<table class=\"flashcard-table\">" = true)
    ∧ csvToHtml ""
      = "<table class=\"flashcard-table\"><thead><tr><th></th></tr></thead><tbody></tbody></table>" := by
  have hne : ∀ s : String, splitLines (jsTrim s) ≠ [] := by
    intro s h
    simp [splitLines, splitList] at h
  refine ⟨hne, ?_, by decide⟩
  intro csv
  rcases h : splitLines (jsTrim csv) with _ | ⟨first, rest⟩
  · exact absurd h (hne csv)
  · show strStartsWith (match splitLines (jsTrim csv) with
      | [] => ""
      | first :: rest =>
        "<table class=\"flashcard-table\">"
          ++ ("<thead>" ++ csvRow "th" ((splitOnChar ',' first).map csvCell) ++ "</thead>")
          ++ "<tbody>"
          ++ String.join (rest.map (fun line => csvRow "td" ((splitOnChar ',' line).map csvCell)))
          ++ "</tbody></table>") "<table class=\"flashcard-table\">" = true
    rw [h]
    simp only [String.append_assoc]
    exact strStartsWith_append _ _

/-! ## C8

The claim describes where the body of an org document starts; the two
definitions below follow the spec's words (an indexed line predicate),
to be compared with the scanning loop embedded from the source. -/

/-- Follows the spec's words: whether line `i` lies inside a property
drawer — the state after the markers `:PROPERTIES:` / `:END:` on the
lines before it. -/
def specDrawerOpen (lines : List String) : Nat → Bool
  | 0 => false
  | i + 1 =>
    let t := jsTrim (lines.getD i "")
    if t = ":PROPERTIES:" then true
    else if t = ":END:" then false
    else specDrawerOpen lines i

/-- Follows the spec's words: line `i` is a body line when it is
non-blank, not a directive (`#+`) line, and not part of a property drawer
(neither a drawer marker line nor a line while the drawer is open). -/
def specBodyLine (lines : List String) (i : Nat) : Bool :=
  let t := jsTrim (lines.getD i "")
  !(t == ":PROPERTIES:") && !(t == ":END:") && !(specDrawerOpen lines i)
    && !(strStartsWith t "#+") && decide (0 < t.length)

theorem strStartsWith_mono (t p q : String) (hq : q.data = p.data.take q.data.length)
    (h : strStartsWith t p = true) : strStartsWith t q = true := by
  unfold strStartsWith at h ⊢
  have h' : t.data.take p.data.length = p.data := by simpa using h
  have hqlen : q.data.length ≤ p.data.length := by
    have := congrArg List.length hq
    simp only [List.length_take] at this
    omega
  have : t.data.take q.data.length = q.data := by
    calc t.data.take q.data.length
        = (t.data.take p.data.length).take q.data.length := by
          rw [List.take_take, Nat.min_eq_left hqlen]
      _ = p.data.take q.data.length := by rw [h']
      _ = q.data := hq.symm
  simpa using this

/-- The scanning loop of the source, started at line `j` with the drawer
state the spec predicts there, stops exactly at the first body line in
the spec's sense. -/
theorem orgLoop_find (lines : List String) :
    ∀ (n j : Nat) (m : FrontData), lines.length = j + n →
      (orgLoop (lines.drop j) j (specDrawerOpen lines j) m).2
        = (List.range' j n).find? (specBodyLine lines) := by
  intro n
  induction n with
  | zero =>
    intro j m hlen
    rw [List.drop_eq_nil_of_le (by omega)]
    rfl
  | succ n ih =>
    intro j m hlen
    have hj : j < lines.length := by omega
    have hget : lines[j]? = some lines[j] := List.getElem?_eq_getElem hj
    have hdrop : lines.drop j = lines[j] :: lines.drop (j + 1) :=
      (List.getElem_cons_drop lines j hj).symm
    have hrange : List.range' j (n + 1) = j :: List.range' (j + 1) n := by
      simp [List.range']
    have hlen' : lines.length = (j + 1) + n := by omega
    rw [hdrop, hrange]
    simp only [orgLoop]
    by_cases h1 : jsTrim lines[j] = ":PROPERTIES:"
    · rw [if_pos h1]
      have hopen : specDrawerOpen lines (j + 1) = true := by
        simp [specDrawerOpen, hget, h1]
      have hpj : specBodyLine lines j = false := by
        simp [specBodyLine, hget, h1]
      simp only [List.find?_cons, hpj]
      rw [← hopen]
      exact ih (j + 1) m hlen'
    · rw [if_neg h1]
      by_cases h2 : jsTrim lines[j] = ":END:"
      · rw [if_pos h2]
        have hclosed : specDrawerOpen lines (j + 1) = false := by
          simp [specDrawerOpen, hget, h1, h2]
        have hpj : specBodyLine lines j = false := by
          simp [specBodyLine, hget, h2]
        simp only [List.find?_cons, hpj]
        rw [← hclosed]
        exact ih (j + 1) m hlen'
      · rw [if_neg h2]
        have hkeep : specDrawerOpen lines (j + 1) = specDrawerOpen lines j := by
          simp [specDrawerOpen, hget, h1, h2]
        by_cases hd : specDrawerOpen lines j = true
        · rw [if_pos hd]
          have hpj : specBodyLine lines j = false := by
            simp [specBodyLine, hd]
          simp only [List.find?_cons, hpj]
          rcases hp : parsePropLine (jsTrim lines[j]) with _ | kv
          · simp only [hp]
            rw [← hkeep]
            exact ih (j + 1) m hlen'
          · simp only [hp]
            rw [← hkeep]
            exact ih (j + 1) (applyOrgKey m kv.1 kv.2) hlen'
        · have hd' : specDrawerOpen lines j = false := by
            cases hdd : specDrawerOpen lines j
            · rfl
            · exact absurd hdd hd
          rw [if_neg (by rw [hd']; exact Bool.false_ne_true)]
          rw [← hkeep]
          by_cases h3 : (strStartsWith (jsTrim lines[j]) "#+title:"
              || strStartsWith (jsTrim lines[j]) "#+TITLE:") = true
          · rw [if_pos h3]
            have hhash : strStartsWith (jsTrim lines[j]) "#+" = true := by
              rcases Bool.or_eq_true_iff.mp h3 with h | h
              · exact strStartsWith_mono _ "#+title:" "#+" (by decide) h
              · exact strStartsWith_mono _ "#+TITLE:" "#+" (by decide) h
            have hpj : specBodyLine lines j = false := by
              simp [specBodyLine, hget, hhash]
            simp only [List.find?_cons, hpj]
            exact ih (j + 1) _ hlen'
          · rw [if_neg h3]
            by_cases h4 : (strStartsWith (jsTrim lines[j]) "#+filetags:"
                || strStartsWith (jsTrim lines[j]) "#+FILETAGS:") = true
            · rw [if_pos h4]
              have hhash : strStartsWith (jsTrim lines[j]) "#+" = true := by
                rcases Bool.or_eq_true_iff.mp h4 with h | h
                · exact strStartsWith_mono _ "#+filetags:" "#+" (by decide) h
                · exact strStartsWith_mono _ "#+FILETAGS:" "#+" (by decide) h
              have hpj : specBodyLine lines j = false := by
                simp [specBodyLine, hget, hhash]
              simp only [List.find?_cons, hpj]
              exact ih (j + 1) _ hlen'
            · rw [if_neg h4]
              by_cases h5 : strStartsWith (jsTrim lines[j]) "#+" = true
              · rw [if_pos h5]
                have hpj : specBodyLine lines j = false := by
                  simp [specBodyLine, hget, h5]
                simp only [List.find?_cons, hpj]
                exact ih (j + 1) m hlen'
              · rw [if_neg h5]
                by_cases h6 : (jsTrim lines[j]).length > 0
                · rw [if_pos h6]
                  have hpj : specBodyLine lines j = true := by
                    simp [specBodyLine, hget, h1, h2, hd', h5, h6]
                  simp only [List.find?_cons, hpj]
                · rw [if_neg h6]
                  have hpj : specBodyLine lines j = false := by
                    simp [specBodyLine, hget, h6]
                  simp only [List.find?_cons, hpj]
                  exact ih (j + 1) m hlen'

theorem joinLines_splitLines (s : String) : joinLines (splitLines s) = s := by
  unfold joinLines splitLines
  rw [List.map_map]
  have hcomp : (String.data ∘ fun l : List Char => (⟨l⟩ : String)) = id := rfl
  rw [hcomp, List.map_id, joinList_splitList]

/-- C8: the body returned by `parseOrgFile` is the suffix of the document
from `bodyStart`, `bodyStart` is the index of the first line that is
non-blank, not a directive and not part of a property drawer (defaulting
to the initial value 0), and when no such line exists the body is the
entire document. -/
theorem claim_C8_body_start (content : String) :
    ((parseOrgFile content).bodyStart
      = (((List.range (splitLines content).length).find?
          (specBodyLine (splitLines content))).getD 0))
    ∧ (parseOrgFile content).body
      = joinLines ((splitLines content).drop (parseOrgFile content).bodyStart)
    ∧ ((List.range (splitLines content).length).find?
          (specBodyLine (splitLines content)) = none →
        (parseOrgFile content).bodyStart = 0 ∧ (parseOrgFile content).body = content) := by
  have hmain : (orgLoop (splitLines content) 0 false {}).2
      = (List.range (splitLines content).length).find? (specBodyLine (splitLines content)) := by
    have := orgLoop_find (splitLines content) (splitLines content).length 0 {} (by omega)
    rw [List.drop_zero] at this
    rw [List.range_eq_range']
    exact this
  have hstart : (parseOrgFile content).bodyStart
      = ((List.range (splitLines content).length).find?
          (specBodyLine (splitLines content))).getD 0 := by
    show (orgLoop (splitLines content) 0 false {}).2.getD 0 = _
    rw [hmain]
  refine ⟨hstart, rfl, ?_⟩
  intro hnone
  have h0 : (parseOrgFile content).bodyStart = 0 := by rw [hstart, hnone]; rfl
  refine ⟨h0, ?_⟩
  show joinLines ((splitLines content).drop (parseOrgFile content).bodyStart) = content
  rw [h0, List.drop_zero, joinLines_splitLines]

/-- Witness: C8's degenerate case on a document of only directive, drawer
and blank lines — the body start stays 0 and the body is the whole
document. -/
theorem claim_C8_witness :
    (parseOrgFile "#+title: X\n:PROPERTIES:\n:STATUS: idle\n:END:\n \n").bodyStart = 0
    ∧ (parseOrgFile "#+title: X\n:PROPERTIES:\n:STATUS: idle\n:END:\n \n").body
      = "#+title: X\n:PROPERTIES:\n:STATUS: idle\n:END:\n \n" :=
  (claim_C8_body_start "#+title: X\n:PROPERTIES:\n:STATUS: idle\n:END:\n \n").2.2 (by decide)

end NotesSite
